import Mathlib

/-!
Verification development for the fs-dkr dynamic key-refresh core.

The Rust sources embedded here are `src/ring_pedersen_proof.rs` (the
Ring-Pedersen Sigma-protocol) and `src/add_party_message.rs` (the join
message protocol).  Big integers (`curv::BigInt`) are modelled as `ℕ`
(all arithmetic in these files is on non-negative values), elliptic
curve points and scalars as `ℤ` (only the module structure is used by
the code), and the external collaborator libraries (Paillier, the
refresh-message batch API, Feldman VSS, the digest) as explicit
function parameters bundled in environment structures, following the
spec's instruction to inject configuration and primitives rather than
reference ambient globals.  The per-call randomness of the source
(`sample_below` etc.) is likewise passed in as explicit arguments, so
every definition is a deterministic function of its inputs.

The file is organised as: all definitions first, then all theorems.
-/

namespace FsDkr

/-- Error kinds surfaced by the core.  `NewPartyUnassignedIndexError` and
`BroadcastedPublicKeyError` are declared in this crate; failures of the
external `RefreshMessage::validate_collect` are propagated unchanged and
modelled by `ValidationError` with an abstract code (the error enum
itself lives outside `src/`, so its remaining shape is modelled from the
spec: "Propagated validation failure from the external
`validate_collect`"). -/
inductive FsDkrError where
  | NewPartyUnassignedIndexError : FsDkrError
  | BroadcastedPublicKeyError : FsDkrError
  | ValidationError : ℕ → FsDkrError
deriving DecidableEq, Repr

abbrev FsDkrResult (α : Type) := Except FsDkrError α

/-! ## Ring-Pedersen Sigma protocol (`src/ring_pedersen_proof.rs`) -/

/-- `RingPedersenStatement` from `ring_pedersen_proof.rs`: modulus `N`,
group elements `S`, `T`, and the group order `phi` (kept in the
statement by the source). -/
structure RingPedersenStatement where
  S : ℕ
  T : ℕ
  N : ℕ
  phi : ℕ
deriving DecidableEq, Repr

/-- `RingPedersenWitness`: the factorization and the exponent `lambda`. -/
structure RingPedersenWitness where
  p : ℕ
  q : ℕ
  lambda : ℕ
deriving DecidableEq, Repr

/-- `RingPedersenProof`: `M_SECURITY` commitments `A`, responses `Z`, and
the transmitted Fiat-Shamir challenge bits.  The fixed-size arrays
`[BigInt; M_SECURITY]` are modelled as lists of length `m`, where the
round count `m` models the crate constant `M_SECURITY` (injected as a
parameter, as the spec directs for process-wide configuration). -/
structure RingPedersenProof where
  A : List ℕ
  Z : List ℕ
  bitwise_e : List Bool
deriving DecidableEq, Repr

/-- Environment for `prove`: the per-round sampled masking exponents
(`BigInt::sample_below(&statement.phi)`), the digest chain
(`H::new().chain_bigint(...)...result_bigint()`) and the bit expansion
of the hash output (`BitVec::from(e.to_bytes().as_bits())`), all
external primitives of the source. -/
structure RPEnv where
  alpha : ℕ → ℕ
  hashChain : List ℕ → ℕ
  toBits : ℕ → ℕ → Bool

/-- `RingPedersenStatement::generate`, as a function of the sampled
randomness: the Paillier modulus factors `p, q`
(`keypair_with_modulus_size`), the sample `r` below `N`, and the sample
`lambda` below `phi`.  Computes `phi = (p-1)(q-1)`, `T = r^2 mod N`,
`S = T^lambda mod N`. -/
def RingPedersenStatement.generate (p q r lambda : ℕ) :
    RingPedersenStatement × RingPedersenWitness :=
  let n := p * q
  let phi := (p - 1) * (q - 1)
  let t := r ^ 2 % n
  let s := t ^ lambda % n
  (⟨s, t, n, phi⟩, ⟨p, q, lambda⟩)

/-- `RingPedersenProof::prove`: commitments `A_i = T^{a_i} mod N`, hash
challenge `e` over all commitments, challenge bits from `e`, responses
`Z_i = a_i + e_i * lambda (mod phi)`. -/
def RingPedersenProof.prove (m : ℕ) (env : RPEnv)
    (witness : RingPedersenWitness) (statement : RingPedersenStatement) :
    RingPedersenProof :=
  let A := (List.range m).map (fun i => statement.T ^ env.alpha i % statement.N)
  let e := env.hashChain A
  let bitwise_e := (List.range m).map (fun i => env.toBits e i)
  let Z := (List.range m).map (fun i =>
    (env.alpha i + (if env.toBits e i then 1 else 0) * witness.lambda) % statement.phi)
  ⟨A, Z, bitwise_e⟩

/-- The round-`i` verification equation computed inside
`RingPedersenProof::verify`:
`T^{Z_i} mod N == A_i * S^{e_i} mod N` with `e_i` the transmitted
challenge bit. -/
def ringPedersenRound (statement : RingPedersenStatement)
    (pf : RingPedersenProof) (i : ℕ) : Bool :=
  let e_i : ℕ := if pf.bitwise_e.getD i false then 1 else 0
  statement.T ^ pf.Z.getD i 0 % statement.N
    == pf.A.getD i 0 * (statement.S ^ e_i % statement.N) % statement.N

/-- `RingPedersenProof::verify` as written in the source: the loop
computes each round's equation but the `if` body is empty, so the
outcome of every check is discarded and the function returns `Ok(())`
unconditionally. -/
def RingPedersenProof.verify (m : ℕ) (pf : RingPedersenProof)
    (statement : RingPedersenStatement) : FsDkrResult Unit :=
  let _checks := (List.range m).map (fun i => ringPedersenRound statement pf i)
  Except.ok ()

/-! ## Pedersen parameter generation (`src/add_party_message.rs`) -/

/-- `BigInt::mod_inv(a, m)` of the curv library (an external primitive):
its contract is to return the unique representative in `[0, m)` of the
modular inverse of `a` when one exists, and `None` otherwise; modelled
by direct search for that representative. -/
def modInv (a m : ℕ) : Option ℕ :=
  (List.range m).find? (fun b => a * b % m == 1 % m)

/-- `generate_h1_h2_n_tilde`, as a function of the sampled randomness:
factors `p, q` of the fresh Paillier modulus, the base `h1` sampled
below `N`, and the exponent sample `xhi₀` below `phi`.  The source's
resampling loop retries until `mod_inv` succeeds; a draw on which
`mod_inv` fails is discarded, modelled by the `none` branch.  On
success the source negates both exponents modulo `phi`:
`xhi := phi - xhi₀`, `xhi_inv := phi - inv`. -/
def generate_h1_h2_n_tilde (p q h1 xhi₀ : ℕ) :
    Option (ℕ × ℕ × ℕ × ℕ × ℕ) :=
  let n := p * q
  let phi := (p - 1) * (q - 1)
  match modInv xhi₀ phi with
  | none => none
  | some inv =>
    let h2 := h1 ^ xhi₀ % n
    some (n, h1, h2, phi - xhi₀, phi - inv)

/-! ## Join message protocol data model (`src/add_party_message.rs`)

Elliptic curve points and scalars are generic in the source (`Point<E>`,
`Scalar<E>`); only point addition and point-by-scalar multiplication are
used, so both are modelled as `ℤ` with `ℤ`-multiplication as the scalar
action.  Paillier ciphertexts, decryption keys, the VSS commitment and
the two zero-knowledge proof objects carried inside messages are opaque
to this code and modelled as `ℕ`-valued tokens. -/

abbrev Point := ℤ
abbrev Scalar := ℤ
abbrev Ciphertext := ℕ
abbrev DecryptionKey := ℕ
abbrev VssScheme := ℕ
abbrev CorrectKeyProof := ℕ
abbrev CompositeDLogProofTok := ℕ

/-- `paillier::EncryptionKey` (only its `n`, `nn` fields are touched by
this crate: the zero-valued placeholder sets both to zero). -/
structure EncryptionKey where
  n : ℕ
  nn : ℕ
deriving DecidableEq, Repr

/-- `zk_paillier::DLogStatement`: modulus `N`, base `g`, value `ni`. -/
structure DLogStatement where
  N : ℕ
  g : ℕ
  ni : ℕ
deriving DecidableEq, Repr

/-- The Paillier keypair `Keys` held by the joining party (`ek`, `dk`). -/
structure Keys where
  ek : EncryptionKey
  dk : DecryptionKey
deriving DecidableEq, Repr

/-- The external `RefreshMessage`, restricted to the fields this core
reads: `party_index`, `ek`, `dlog_statement`, `points_committed_vec`,
`public_key`. -/
structure RefreshMessage where
  party_index : ℕ
  ek : EncryptionKey
  dlog_statement : DLogStatement
  points_committed_vec : List Point
  public_key : Point
deriving DecidableEq, Repr

/-- `JoinMessage` from `add_party_message.rs`. -/
structure JoinMessage where
  ek : EncryptionKey
  dk_correctness_proof : CorrectKeyProof
  party_index : Option ℕ
  dlog_statement : DLogStatement
  composite_dlog_proof_base_h1 : CompositeDLogProofTok
  composite_dlog_proof_base_h2 : CompositeDLogProofTok
deriving DecidableEq, Repr

/-- `SharedKeys` (gg_2020): the secret share and its public point. -/
structure SharedKeys where
  x_i : Scalar
  y : Point
deriving DecidableEq, Repr

/-- `ShamirSecretSharing` parameters. -/
structure ShamirSecretSharing where
  threshold : ℕ
  share_count : ℕ
deriving DecidableEq, Repr

/-- `LocalKey` (gg_2020), restricted to the fields this core writes. -/
structure LocalKey where
  paillier_dk : DecryptionKey
  pk_vec : List Point
  keys_linear : SharedKeys
  paillier_key_vec : List EncryptionKey
  y_sum_s : Point
  h1_h2_n_tilde_vec : List DLogStatement
  vss_scheme : VssScheme
  i : ℕ
  t : ℕ
  n : ℕ
deriving DecidableEq, Repr

/-- The external collaborators consumed by `JoinMessage::collect`:
`RefreshMessage::validate_collect`, `RefreshMessage::get_ciphertext_sum`,
`Paillier::decrypt`, the `BigInt → Scalar` conversion, the curve base
point, `VerifiableSS::share` (first component), and the fresh
`generate_dlog_statement_proofs().0` drawn for a party position absent
from the merged mapping (randomized in the source; modelled as a
function of the position so each position's draw is independent). -/
structure Externals where
  validate_collect : List RefreshMessage → ℕ → ℕ → FsDkrResult Unit
  get_ciphertext_sum :
    List RefreshMessage → ℕ → ShamirSecretSharing → EncryptionKey →
      Ciphertext × List Scalar
  decrypt : DecryptionKey → Ciphertext → ℕ
  scalar_from : ℕ → Scalar
  generator : Point
  vss_share : ℕ → ℕ → Scalar → VssScheme
  gen_dlog_statement : ℕ → DLogStatement

/-- Default used to model the panic value of an out-of-bounds `Vec`
index; all theorems about `collect` stay within bounds established by
the batch validation. -/
def rmDefault : RefreshMessage := ⟨0, ⟨0, 0⟩, ⟨0, 0, 0⟩, [], 0⟩

/-- `JoinMessage::get_party_index`: the index, or
`NewPartyUnassignedIndexError` when unassigned. -/
def JoinMessage.get_party_index (jm : JoinMessage) : FsDkrResult ℕ :=
  match jm.party_index with
  | some i => Except.ok i
  | none => Except.error FsDkrError.NewPartyUnassignedIndexError

/-- `JoinMessage::set_party_index`. -/
def JoinMessage.set_party_index (jm : JoinMessage) (new_party_index : ℕ) :
    JoinMessage :=
  { jm with party_index := some new_party_index }

/-- Inputs of `JoinMessage::distribute` that come from external
primitives: the fresh Paillier keypair (`Keys::create(0)`), the
correctness proof (`NiCorrectKeyProof::proof`), and the dlog statement
with its two composite proofs (`generate_dlog_statement_proofs`, whose
internal randomness is abstracted here). -/
structure DistributeEnv where
  keypair : Keys
  dk_proof : CorrectKeyProof
  dlog_statement : DLogStatement
  proof_h1 : CompositeDLogProofTok
  proof_h2 : CompositeDLogProofTok

/-- `JoinMessage::distribute`: packages the keypair's public key, the
correctness proof, the dlog statement and proofs, with
`party_index = None`; returns the message and the keypair. -/
def JoinMessage.distribute (env : DistributeEnv) : JoinMessage × Keys :=
  (⟨env.keypair.ek, env.dk_proof, none, env.dlog_statement,
    env.proof_h1, env.proof_h2⟩, env.keypair)

/-- The source's loop `for join_message in join_messages { ...get_party_index()?; }`:
fail with the first unassigned index, succeed otherwise. -/
def checkIndices : List JoinMessage → FsDkrResult Unit
  | [] => Except.ok ()
  | jm :: rest =>
    match jm.get_party_index with
    | Except.error e => Except.error e
    | Except.ok _ => checkIndices rest

/-- One `HashMap::insert`: later inserts override earlier ones. -/
def hmInsert {α : Type} (m : ℕ → Option α) (k : ℕ) (v : α) : ℕ → Option α :=
  fun x => if x = k then some v else m x

/-- Collecting an iterator of key/value pairs into a `HashMap`: fold
the pairs left to right, later pairs overriding earlier ones. -/
def hmCollect {α : Type} (l : List (ℕ × α)) : ℕ → Option α :=
  l.foldl (fun m p => hmInsert m p.1 p.2) (fun _ => none)

/-- The `available_parties` map of `collect`: refresh-message entries,
then the caller's own `(party_index, ek)`, then the join-message
entries (`party_index.unwrap()` modelled by `getD 0`; it is guarded by
the earlier per-message index check). -/
def availableParties (refresh_messages : List RefreshMessage)
    (party_index : ℕ) (own_ek : EncryptionKey)
    (join_messages : List JoinMessage) : ℕ → Option EncryptionKey :=
  hmCollect
    (refresh_messages.map (fun msg => (msg.party_index, msg.ek))
      ++ [(party_index, own_ek)]
      ++ join_messages.map (fun jm => (jm.party_index.getD 0, jm.ek)))

/-- The `available_h1_h2_ntilde_vec` map of `collect`: same merge
pattern for the `DLogStatement`s, the caller contributing its own
`self.dlog_statement`. -/
def availableH1H2 (refresh_messages : List RefreshMessage)
    (party_index : ℕ) (self_dlog : DLogStatement)
    (join_messages : List JoinMessage) : ℕ → Option DLogStatement :=
  hmCollect
    (refresh_messages.map (fun msg => (msg.party_index, msg.dlog_statement))
      ++ [(party_index, self_dlog)]
      ++ join_messages.map (fun jm => (jm.party_index.getD 0, jm.dlog_statement)))

/-- The entry of `pk_vec` at position `i`:
`refresh_messages[0].points_committed_vec[i] * li_vec[0]` then the loop
`for j in 1..t+1` adding
`refresh_messages[j].points_committed_vec[i] * li_vec[j]`. -/
def pkEntry (refresh_messages : List RefreshMessage)
    (li_vec : List Scalar) (t i : ℕ) : Point :=
  (List.range' 1 t).foldl
    (fun acc j =>
      acc + (refresh_messages.getD j rmDefault).points_committed_vec.getD i 0
        * li_vec.getD j 0)
    ((refresh_messages.getD 0 rmDefault).points_committed_vec.getD i 0
      * li_vec.getD 0 0)

/-- The `LocalKey` assembled by `collect` on its success path, with
`party_index` the caller's resolved index.  All bindings mirror the
source: the ciphertext sum and Lagrange coefficients from
`get_ciphertext_sum`, the decrypted share and its scalar, `keys_linear`,
`pk_vec`, the two merged maps read back at positions `1..n` with the
zero key / fresh statement placeholders, `y_sum_s` from
`refresh_messages[0]`, and the fresh VSS commitment. -/
def collectSuccess (ext : Externals) (self : JoinMessage)
    (refresh_messages : List RefreshMessage) (paillier_key : Keys)
    (join_messages : List JoinMessage) (t n party_index : ℕ) : LocalKey :=
  let parameters : ShamirSecretSharing := ⟨t, n⟩
  let cs := ext.get_ciphertext_sum refresh_messages party_index parameters
    paillier_key.ek
  let cipher_text_sum := cs.1
  let li_vec := cs.2
  let new_share := ext.decrypt paillier_key.dk cipher_text_sum
  let new_share_fe := ext.scalar_from new_share
  let paillier_dk := paillier_key.dk
  let key_linear_x_i := new_share_fe
  let key_linear_y := ext.generator * new_share_fe
  let keys_linear : SharedKeys := ⟨key_linear_x_i, key_linear_y⟩
  let pk_vec := (List.range n).map (fun i => pkEntry refresh_messages li_vec t i)
  let available_parties :=
    availableParties refresh_messages party_index paillier_key.ek join_messages
  let available_h1_h2 :=
    availableH1H2 refresh_messages party_index self.dlog_statement join_messages
  let paillier_key_vec := (List.range' 1 n).map (fun party =>
    match available_parties party with
    | none => EncryptionKey.mk 0 0
    | some key => key)
  let h1_h2_ntilde_vec := (List.range' 1 n).map (fun party =>
    match available_h1_h2 party with
    | none => ext.gen_dlog_statement party
    | some statement => statement)
  let vss_scheme := ext.vss_share t n new_share_fe
  { paillier_dk := paillier_dk
    pk_vec := pk_vec
    keys_linear := keys_linear
    paillier_key_vec := paillier_key_vec
    y_sum_s := (refresh_messages.getD 0 rmDefault).public_key
    h1_h2_n_tilde_vec := h1_h2_ntilde_vec
    vss_scheme := vss_scheme
    i := party_index
    t := t
    n := n }

/-- `JoinMessage::collect`: validate the batch, resolve the caller's
index, require every join message to carry an index, reject on
aggregate-public-key disagreement (each message compared against
`refresh_messages[0]`), otherwise assemble the `LocalKey`.  All
remaining computation is pure, so hoisting the (source-late)
public-key agreement loop before the pure bindings preserves the
source's semantics exactly. -/
def JoinMessage.collect (ext : Externals) (self : JoinMessage)
    (refresh_messages : List RefreshMessage) (paillier_key : Keys)
    (join_messages : List JoinMessage) (t n : ℕ) : FsDkrResult LocalKey :=
  match ext.validate_collect refresh_messages t n with
  | Except.error e => Except.error e
  | Except.ok _ =>
    match self.get_party_index with
    | Except.error e => Except.error e
    | Except.ok party_index =>
      match checkIndices join_messages with
      | Except.error e => Except.error e
      | Except.ok _ =>
        if refresh_messages.any (fun rm =>
            rm.public_key != (refresh_messages.getD 0 rmDefault).public_key)
        then Except.error FsDkrError.BroadcastedPublicKeyError
        else Except.ok (collectSuccess ext self refresh_messages paillier_key
          join_messages t n party_index)

/-! ## Concrete instances used by the witness theorems -/

/-- A trivial external environment for concrete evaluation. -/
def ext0 : Externals where
  validate_collect := fun _ _ _ => Except.ok ()
  get_ciphertext_sum := fun _ _ _ _ => (0, [2, 3])
  decrypt := fun _ _ => 4
  scalar_from := fun b => (b : ℤ)
  generator := 5
  vss_share := fun _ _ _ => 0
  gen_dlog_statement := fun party => ⟨100 + party, 0, 0⟩

def ek0 : EncryptionKey := ⟨0, 0⟩

def dlst0 : DLogStatement := ⟨0, 0, 0⟩

def keys0 : Keys := ⟨⟨9, 81⟩, 7⟩

/-- A joining party whose index has been assigned to `1`. -/
def self0 : JoinMessage := ⟨ek0, 0, some 1, ⟨11, 12, 13⟩, 0, 0⟩

def rm0 : RefreshMessage := ⟨2, ⟨21, 22⟩, ⟨23, 24, 25⟩, [10, 20], 5⟩

def rm1 : RefreshMessage := ⟨3, ⟨31, 32⟩, ⟨33, 34, 35⟩, [30, 40], 5⟩

/-- Variant of `rm1` broadcasting a different aggregate public key. -/
def rm1' : RefreshMessage := ⟨3, ⟨31, 32⟩, ⟨33, 34, 35⟩, [30, 40], 6⟩

/-- A join message assigned index `2`, colliding with `rm0`. -/
def jm2 : JoinMessage := ⟨⟨41, 42⟩, 9, some 2, ⟨43, 44, 45⟩, 8, 8⟩

/-- `jm2` with different proof fields only. -/
def jm2' : JoinMessage := ⟨⟨41, 42⟩, 77, some 2, ⟨43, 44, 45⟩, 78, 79⟩

/-- The `LocalKey` produced by the concrete successful collect used by
several witness theorems. -/
def lkW : LocalKey := collectSuccess ext0 self0 [rm0, rm1] keys0 [jm2] 1 2 1

/-! ## Theorems -/

/-- C1: the claim says `verify` rejects whenever some round `k` has
`T^{Z_k} mod N != A_k * S^{e_k} mod N`.  The code never rejects: at a
concrete statement/proof whose only round fails the equation, `verify`
still returns `Ok(())`.  (Statement: `N = 5`, `S = 2`, `T = 2`; proof:
`A_0 = 1`, `Z_0 = 2`, challenge bit set, so the check is `4 == 2`.) -/
theorem ring_pedersen_verify_never_rejects :
    ringPedersenRound ⟨2, 2, 5, 4⟩ ⟨[1], [2], [true]⟩ 0 = false ∧
    RingPedersenProof.verify 1 ⟨[1], [2], [true]⟩ ⟨2, 2, 5, 4⟩ = Except.ok () := by
  constructor
  · decide
  · rfl

/-- C2: for every statement/witness pair produced by
`RingPedersenStatement::generate` (over all random choices `p q r
lambda` and every prover environment), `verify (prove witness statement)
statement` succeeds. -/
theorem ring_pedersen_honest_proof_accepted (m : ℕ) (env : RPEnv)
    (p q r lambda : ℕ) :
    RingPedersenProof.verify m
      (RingPedersenProof.prove m env
        (RingPedersenStatement.generate p q r lambda).2
        (RingPedersenStatement.generate p q r lambda).1)
      (RingPedersenStatement.generate p q r lambda).1 = Except.ok () := rfl

/-- Correctness of `modInv`: a returned value is a modular inverse. -/
theorem modInv_mul {a m b : ℕ} (h : modInv a m = some b) :
    a * b % m = 1 % m := by
  have hfind := List.find?_some h
  simpa using hfind

/-- C5: `generate_h1_h2_n_tilde` returns `(N, h1, h2, x, x_inv)` with
`h2 = h1^lambda mod N`, `x = phi(N) - lambda`, and
`x_inv = phi(N) - lambda_inv` where `lambda * lambda_inv ≡ 1 (mod
phi(N))`, for the internally sampled exponent `lambda` (invertible
modulo `phi(N) = (p-1)(q-1)`). -/
theorem generate_h1_h2_n_tilde_spec (p q h1 lambda : ℕ)
    (hlam : lambda < (p - 1) * (q - 1))
    (N h1' h2 x xinv : ℕ)
    (h : generate_h1_h2_n_tilde p q h1 lambda = some (N, h1', h2, x, xinv)) :
    N = p * q ∧ h1' = h1 ∧ h2 = h1 ^ lambda % N ∧
    x = (p - 1) * (q - 1) - lambda ∧
    ∃ linv, modInv lambda ((p - 1) * (q - 1)) = some linv ∧
      xinv = (p - 1) * (q - 1) - linv ∧
      lambda * linv % ((p - 1) * (q - 1)) = 1 % ((p - 1) * (q - 1)) := by
  simp only [generate_h1_h2_n_tilde] at h
  cases hinv : modInv lambda ((p - 1) * (q - 1)) with
  | none => rw [hinv] at h; exact absurd h (by simp)
  | some linv =>
    rw [hinv] at h
    simp only [Option.some.injEq, Prod.mk.injEq] at h
    obtain ⟨hN, hh1, hh2, hx, hxinv⟩ := h
    subst hN hh1 hh2 hx hxinv
    exact ⟨rfl, rfl, rfl, rfl, linv, rfl, rfl, modInv_mul hinv⟩

/-- Witness for C5 at `p = 3`, `q = 5`, `h1 = 2`, `lambda = 3`:
`phi = 8`, the inverse of `3` mod `8` is `3`, and the generator returns
`(15, 2, 8, 5, 5)`. -/
theorem generate_h1_h2_n_tilde_spec_witness :
    15 = 3 * 5 ∧ 2 = 2 ∧ 8 = 2 ^ 3 % 15 ∧
    5 = (3 - 1) * (5 - 1) - 3 ∧
    ∃ linv, modInv 3 ((3 - 1) * (5 - 1)) = some linv ∧
      5 = (3 - 1) * (5 - 1) - linv ∧
      3 * linv % ((3 - 1) * (5 - 1)) = 1 % ((3 - 1) * (5 - 1)) :=
  generate_h1_h2_n_tilde_spec 3 5 2 3 (by decide) 15 2 8 5 5 (by decide)

/-- `get_party_index` succeeds with `i` exactly when the index is
assigned to `i`. -/
theorem get_party_index_eq_ok (jm : JoinMessage) (i : ℕ) :
    jm.get_party_index = Except.ok i ↔ jm.party_index = some i := by
  cases h : jm.party_index <;> simp [JoinMessage.get_party_index, h]

/-- C7: `get_party_index` returns `NewPartyUnassignedIndexError` if and
only if `party_index` is `None` (as it is immediately after
`distribute`), and after `set_party_index i` it returns `Ok i`. -/
theorem get_party_index_spec (jm : JoinMessage) :
    (jm.get_party_index = Except.error FsDkrError.NewPartyUnassignedIndexError
      ↔ jm.party_index = none) ∧
    (∀ i, (jm.set_party_index i).get_party_index = Except.ok i) ∧
    (∀ env : DistributeEnv, (JoinMessage.distribute env).1.party_index = none ∧
      (JoinMessage.distribute env).1.get_party_index =
        Except.error FsDkrError.NewPartyUnassignedIndexError) := by
  refine ⟨?_, ?_, ?_⟩
  · cases h : jm.party_index <;> simp [JoinMessage.get_party_index, h]
  · intro i
    simp [JoinMessage.set_party_index, JoinMessage.get_party_index]
  · intro env
    exact ⟨rfl, rfl⟩

/-- `checkIndices` succeeds exactly when every join message carries an
assigned index. -/
theorem checkIndices_ok_iff (js : List JoinMessage) :
    checkIndices js = Except.ok () ↔ ∀ jm ∈ js, jm.party_index.isSome := by
  induction js with
  | nil => simp [checkIndices]
  | cons hd tl ih =>
    cases hhd : hd.party_index with
    | none =>
      simp only [checkIndices, JoinMessage.get_party_index, hhd]
      constructor
      · intro h
        exact absurd h (by simp)
      · intro h
        have hmem := h hd (by simp)
        rw [hhd] at hmem
        simp at hmem
    | some i =>
      simp only [checkIndices, JoinMessage.get_party_index, hhd]
      rw [ih]
      constructor
      · intro h jm hmem
        rcases List.mem_cons.mp hmem with rfl | hmem'
        · simp [hhd]
        · exact h jm hmem'
      · intro h jm hmem
        exact h jm (List.mem_cons_of_mem _ hmem)

/-- Folding `hmInsert` from an arbitrary starting map: the pairs in `l`
take precedence, the starting map answers keys `l` does not bind. -/
theorem hmCollect_foldl {α : Type} (l : List (ℕ × α)) (m : ℕ → Option α)
    (k : ℕ) :
    l.foldl (fun acc p => hmInsert acc p.1 p.2) m k =
      (match hmCollect l k with
       | some v => some v
       | none => m k) := by
  induction l generalizing m with
  | nil => simp [hmCollect]
  | cons p rest ih =>
    rw [List.foldl_cons, ih]
    have h2 : hmCollect (p :: rest) k =
        (match hmCollect rest k with
         | some v => some v
         | none => hmInsert (fun _ => none) p.1 p.2 k) := by
      rw [hmCollect, List.foldl_cons, ih]
    rw [h2]
    cases hmCollect rest k with
    | some v => rfl
    | none =>
      simp only [hmInsert]
      by_cases hk : k = p.1 <;> simp [hk]

/-- A later segment of inserted pairs overrides an earlier one. -/
theorem hmCollect_append {α : Type} (l₁ l₂ : List (ℕ × α)) (k : ℕ) :
    hmCollect (l₁ ++ l₂) k =
      (match hmCollect l₂ k with
       | some v => some v
       | none => hmCollect l₁ k) := by
  rw [hmCollect, List.foldl_append]
  exact hmCollect_foldl l₂ _ k

/-- A key bound by no pair of the list is absent from the map. -/
theorem hmCollect_none {α : Type} (l : List (ℕ × α)) (k : ℕ)
    (h : ∀ q ∈ l, q.1 ≠ k) : hmCollect l k = none := by
  induction l with
  | nil => rfl
  | cons p rest ih =>
    have h2 : hmCollect (p :: rest) k =
        (match hmCollect rest k with
         | some v => some v
         | none => hmInsert (fun _ => none) p.1 p.2 k) := by
      rw [hmCollect, List.foldl_cons, hmCollect_foldl]
    rw [h2, ih (fun q hq => h q (List.mem_cons_of_mem _ hq))]
    simp only [hmInsert]
    have hne : p.1 ≠ k := h p (by simp)
    exact if_neg fun hk => hne hk.symm

/-- The last inserted pair with a given key wins. -/
theorem hmCollect_last {α : Type} (l₁ l₂ : List (ℕ × α)) (k : ℕ) (v : α)
    (h₂ : ∀ q ∈ l₂, q.1 ≠ k) :
    hmCollect (l₁ ++ (k, v) :: l₂) k = some v := by
  rw [hmCollect_append]
  have hcons : hmCollect ((k, v) :: l₂) k = some v := by
    have h2 : hmCollect ((k, v) :: l₂) k =
        (match hmCollect l₂ k with
         | some w => some w
         | none => hmInsert (fun _ => none) k v k) := by
      rw [hmCollect, List.foldl_cons, hmCollect_foldl]
    rw [h2, hmCollect_none l₂ k h₂]
    simp [hmInsert]
  rw [hcons]

/-- Reading a vector built over party positions `1..n` at offset
`p - 1` yields the entry for position `p`. -/
theorem getD_range'_map {α : Type} (f : ℕ → α) (n p : ℕ) (d : α)
    (h1 : 1 ≤ p) (h2 : p ≤ n) :
    ((List.range' 1 n).map f).getD (p - 1) d = f p := by
  have hlt : p - 1 < n := by omega
  rw [List.getD_eq_getElem?_getD, List.getElem?_map,
    List.getElem?_range' 1 1 hlt]
  have : 1 + 1 * (p - 1) = p := by omega
  rw [this]
  rfl

/-- The accumulation loop of `pk_vec` computes the Lagrange-weighted
sum over contributors `0..t`. -/
theorem pkEntry_eq_sum (refresh_messages : List RefreshMessage)
    (li_vec : List Scalar) (t i : ℕ) :
    pkEntry refresh_messages li_vec t i =
      ∑ j ∈ Finset.range (t + 1),
        (refresh_messages.getD j rmDefault).points_committed_vec.getD i 0
          * li_vec.getD j 0 := by
  induction t with
  | zero => simp [pkEntry]
  | succ t ih =>
    rw [Finset.sum_range_succ, ← ih]
    unfold pkEntry
    rw [List.range'_concat, List.foldl_append]
    simp only [List.foldl_cons, List.foldl_nil]
    have : 1 + 1 * t = t + 1 := by omega
    rw [this]

/-- Unfolding `collect` on its success path. -/
theorem collect_eq_ok (ext : Externals) (self : JoinMessage)
    (rms : List RefreshMessage) (pk : Keys) (js : List JoinMessage)
    (t n pi : ℕ)
    (hv : ext.validate_collect rms t n = Except.ok ())
    (hself : self.party_index = some pi)
    (hjs : checkIndices js = Except.ok ())
    (hpk : rms.any (fun rm =>
      rm.public_key != (rms.getD 0 rmDefault).public_key) = false) :
    JoinMessage.collect ext self rms pk js t n =
      Except.ok (collectSuccess ext self rms pk js t n pi) := by
  unfold JoinMessage.collect
  rw [hv, hjs, hpk]
  simp [JoinMessage.get_party_index, hself]

/-- Unfolding `collect` on the public-key-disagreement path. -/
theorem collect_eq_err_pk (ext : Externals) (self : JoinMessage)
    (rms : List RefreshMessage) (pk : Keys) (js : List JoinMessage)
    (t n pi : ℕ)
    (hv : ext.validate_collect rms t n = Except.ok ())
    (hself : self.party_index = some pi)
    (hjs : checkIndices js = Except.ok ())
    (hpk : rms.any (fun rm =>
      rm.public_key != (rms.getD 0 rmDefault).public_key) = true) :
    JoinMessage.collect ext self rms pk js t n =
      Except.error FsDkrError.BroadcastedPublicKeyError := by
  unfold JoinMessage.collect
  rw [hv, hjs, hpk]
  simp [JoinMessage.get_party_index, hself]

/-- Inversion: a successful `collect` went through the success path. -/
theorem collect_ok_inv (ext : Externals) (self : JoinMessage)
    (rms : List RefreshMessage) (pk : Keys) (js : List JoinMessage)
    (t n : ℕ) (lk : LocalKey)
    (h : JoinMessage.collect ext self rms pk js t n = Except.ok lk) :
    ∃ pi, self.party_index = some pi ∧
      ext.validate_collect rms t n = Except.ok () ∧
      checkIndices js = Except.ok () ∧
      rms.any (fun rm =>
        rm.public_key != (rms.getD 0 rmDefault).public_key) = false ∧
      lk = collectSuccess ext self rms pk js t n pi := by
  unfold JoinMessage.collect at h
  cases hv : ext.validate_collect rms t n with
  | error e => rw [hv] at h; exact absurd h (by simp)
  | ok u =>
    cases u
    rw [hv] at h
    cases hpi : self.get_party_index with
    | error e => rw [hpi] at h; exact absurd h (by simp)
    | ok pi =>
      rw [hpi] at h
      cases hjs : checkIndices js with
      | error e => rw [hjs] at h; exact absurd h (by simp)
      | ok u' =>
        cases u'
        rw [hjs] at h
        dsimp only at h
        by_cases hpk : rms.any (fun rm =>
            rm.public_key != (rms.getD 0 rmDefault).public_key) = true
        · rw [if_pos hpk] at h
          exact absurd h (by simp)
        · rw [if_neg hpk] at h
          simp only [Except.ok.injEq] at h
          have hpk' : rms.any (fun rm =>
              rm.public_key != (rms.getD 0 rmDefault).public_key) = false := by
            simpa using hpk
          exact ⟨pi, (get_party_index_eq_ok self pi).mp hpi, rfl, rfl,
            hpk', h.symm⟩

/-- Reading a vector built over indices `0..n-1` at offset `i`. -/
theorem getD_range_map {α : Type} (f : ℕ → α) (n i : ℕ) (d : α)
    (h : i < n) : ((List.range n).map f).getD i d = f i := by
  rw [List.getD_eq_getElem?_getD, List.getElem?_map, List.getElem?_range h]
  rfl

/-- C3: for a batch of at least two refresh messages, a disagreement
between any two messages' `public_key` fields makes `collect` return
`BroadcastedPublicKeyError`, and on success the returned `LocalKey`'s
`y_sum_s` is the common public key (`refresh_messages[0].public_key`). -/
theorem collect_broadcast_public_key_gate (ext : Externals)
    (self : JoinMessage) (rms : List RefreshMessage) (pk : Keys)
    (js : List JoinMessage) (t n pi : ℕ)
    (hlen : 2 ≤ rms.length)
    (hv : ext.validate_collect rms t n = Except.ok ())
    (hself : self.party_index = some pi)
    (hjs : checkIndices js = Except.ok ()) :
    ((∃ r₁ ∈ rms, ∃ r₂ ∈ rms, r₁.public_key ≠ r₂.public_key) →
      JoinMessage.collect ext self rms pk js t n =
        Except.error FsDkrError.BroadcastedPublicKeyError) ∧
    (∀ lk, JoinMessage.collect ext self rms pk js t n = Except.ok lk →
      lk.y_sum_s = (rms.getD 0 rmDefault).public_key) := by
  constructor
  · rintro ⟨r₁, hm₁, r₂, hm₂, hne⟩
    have hpk : rms.any (fun rm =>
        rm.public_key != (rms.getD 0 rmDefault).public_key) = true := by
      rw [List.any_eq_true]
      by_cases hr₁ : r₁.public_key = (rms.getD 0 rmDefault).public_key
      · refine ⟨r₂, hm₂, ?_⟩
        rw [bne_iff_ne]
        intro hr₂
        exact hne (hr₁.trans hr₂.symm)
      · exact ⟨r₁, hm₁, by rwa [bne_iff_ne]⟩
    exact collect_eq_err_pk ext self rms pk js t n pi hv hself hjs hpk
  · intro lk h
    obtain ⟨pi₀, _, _, _, _, rfl⟩ :=
      collect_ok_inv ext self rms pk js t n lk h
    simp [collectSuccess]

/-- Witness for C3: two refresh messages broadcasting public keys `5`
and `6` make `collect` abort with `BroadcastedPublicKeyError`. -/
theorem collect_broadcast_public_key_gate_witness :
    JoinMessage.collect ext0 self0 [rm0, rm1'] keys0 [] 1 2 =
      Except.error FsDkrError.BroadcastedPublicKeyError :=
  (collect_broadcast_public_key_gate ext0 self0 [rm0, rm1'] keys0 [] 1 2 1
      (by decide) rfl rfl rfl).1
    ⟨rm0, by simp, rm1', by simp, by decide⟩

/-- C4: on success, `pk_vec` has length `n` and entry `i` is the sum
over contributors `j = 0..t` of
`refresh_messages[j].points_committed_vec[i]` scaled by the Lagrange
coefficient `li_vec[j]`; only the first `t + 1` refresh messages (the
only indices appearing in the sum) contribute. -/
theorem collect_pk_vec_lagrange (ext : Externals) (self : JoinMessage)
    (rms : List RefreshMessage) (pk : Keys) (js : List JoinMessage)
    (t n : ℕ) (lk : LocalKey)
    (h : JoinMessage.collect ext self rms pk js t n = Except.ok lk) :
    lk.pk_vec.length = n ∧
    ∀ pi, self.party_index = some pi →
      ∀ i < n, lk.pk_vec.getD i 0 =
        ∑ j ∈ Finset.range (t + 1),
          (rms.getD j rmDefault).points_committed_vec.getD i 0 *
            (ext.get_ciphertext_sum rms pi ⟨t, n⟩ pk.ek).2.getD j 0 := by
  obtain ⟨pi₀, hself₀, _, _, _, rfl⟩ :=
    collect_ok_inv ext self rms pk js t n lk h
  constructor
  · simp [collectSuccess]
  · intro pi hpi i hi
    have hpieq : pi = pi₀ := by
      rw [hself₀] at hpi
      exact (Option.some.inj hpi).symm
    subst hpieq
    simp only [collectSuccess]
    rw [getD_range_map _ n i 0 hi, pkEntry_eq_sum]

/-- Witness for C4 at the concrete successful collect (`t = 1`,
`n = 2`). -/
theorem collect_pk_vec_lagrange_witness :
    lkW.pk_vec.length = 2 ∧
    ∀ pi, self0.party_index = some pi →
      ∀ i < 2, lkW.pk_vec.getD i 0 =
        ∑ j ∈ Finset.range (1 + 1),
          (([rm0, rm1].getD j rmDefault).points_committed_vec.getD i 0) *
            ((ext0.get_ciphertext_sum [rm0, rm1] pi ⟨1, 2⟩ keys0.ek).2.getD j 0) :=
  collect_pk_vec_lagrange ext0 self0 [rm0, rm1] keys0 [jm2] 1 2 lkW rfl

/-- C6: under the success conditions (which put no constraint on the
merged index maps, so an absent position never makes `collect` fail),
`paillier_key_vec` and `h1_h2_n_tilde_vec` both have length `n`, and
entry `p - 1` for a position `p` in `1..n` is the merged map's entry
when present, and otherwise the zero-valued `EncryptionKey` resp. a
freshly generated `DLogStatement`. -/
theorem collect_vec_placeholder (ext : Externals) (self : JoinMessage)
    (rms : List RefreshMessage) (pk : Keys) (js : List JoinMessage)
    (t n pi : ℕ)
    (hv : ext.validate_collect rms t n = Except.ok ())
    (hself : self.party_index = some pi)
    (hjs : checkIndices js = Except.ok ())
    (hpk : rms.any (fun rm =>
      rm.public_key != (rms.getD 0 rmDefault).public_key) = false) :
    ∃ lk, JoinMessage.collect ext self rms pk js t n = Except.ok lk ∧
      lk.paillier_key_vec.length = n ∧
      lk.h1_h2_n_tilde_vec.length = n ∧
      ∀ p, 1 ≤ p → p ≤ n →
        lk.paillier_key_vec.getD (p - 1) ⟨0, 0⟩ =
          (match availableParties rms pi pk.ek js p with
           | none => EncryptionKey.mk 0 0
           | some key => key) ∧
        lk.h1_h2_n_tilde_vec.getD (p - 1) ⟨0, 0, 0⟩ =
          (match availableH1H2 rms pi self.dlog_statement js p with
           | none => ext.gen_dlog_statement p
           | some statement => statement) := by
  refine ⟨collectSuccess ext self rms pk js t n pi,
    collect_eq_ok ext self rms pk js t n pi hv hself hjs hpk, ?_, ?_, ?_⟩
  · simp [collectSuccess]
  · simp [collectSuccess]
  · intro p hp1 hpn
    constructor
    · simp only [collectSuccess]
      rw [getD_range'_map _ n p _ hp1 hpn]
    · simp only [collectSuccess]
      rw [getD_range'_map _ n p _ hp1 hpn]

/-- Witness for C6 with `n = 4`: positions `1..3` are present in the
merged maps, position `4` is absent and receives the placeholders. -/
theorem collect_vec_placeholder_witness :
    ∃ lk, JoinMessage.collect ext0 self0 [rm0, rm1] keys0 [jm2] 1 4 =
        Except.ok lk ∧
      lk.paillier_key_vec.length = 4 ∧
      lk.h1_h2_n_tilde_vec.length = 4 ∧
      ∀ p, 1 ≤ p → p ≤ 4 →
        lk.paillier_key_vec.getD (p - 1) ⟨0, 0⟩ =
          (match availableParties [rm0, rm1] 1 keys0.ek [jm2] p with
           | none => EncryptionKey.mk 0 0
           | some key => key) ∧
        lk.h1_h2_n_tilde_vec.getD (p - 1) ⟨0, 0, 0⟩ =
          (match availableH1H2 [rm0, rm1] 1 self0.dlog_statement [jm2] p with
           | none => ext0.gen_dlog_statement p
           | some statement => statement) :=
  collect_vec_placeholder ext0 self0 [rm0, rm1] keys0 [jm2] 1 4 1
    rfl rfl rfl (by decide)

/-- C8: on success, the returned `paillier_dk` is the caller's private
Paillier key unchanged, `keys_linear.x_i` is the scalar obtained by
decrypting the ciphertext sum with that key, and `keys_linear.y` is
`x_i` times the curve base point. -/
theorem collect_keys_linear_dk (ext : Externals) (self : JoinMessage)
    (rms : List RefreshMessage) (pk : Keys) (js : List JoinMessage)
    (t n : ℕ) (lk : LocalKey) (pi : ℕ)
    (h : JoinMessage.collect ext self rms pk js t n = Except.ok lk)
    (hself : self.party_index = some pi) :
    lk.paillier_dk = pk.dk ∧
    lk.keys_linear.x_i = ext.scalar_from
      (ext.decrypt pk.dk (ext.get_ciphertext_sum rms pi ⟨t, n⟩ pk.ek).1) ∧
    lk.keys_linear.y = lk.keys_linear.x_i * ext.generator := by
  obtain ⟨pi₀, hself₀, _, _, _, rfl⟩ :=
    collect_ok_inv ext self rms pk js t n lk h
  have hpieq : pi = pi₀ := by
    rw [hself₀] at hself
    exact (Option.some.inj hself).symm
  subst hpieq
  refine ⟨?_, ?_, ?_⟩
  · simp [collectSuccess]
  · simp [collectSuccess]
  · simp [collectSuccess, mul_comm]

/-- Witness for C8 at the concrete successful collect. -/
theorem collect_keys_linear_dk_witness :
    lkW.paillier_dk = keys0.dk ∧
    lkW.keys_linear.x_i = ext0.scalar_from
      (ext0.decrypt keys0.dk
        (ext0.get_ciphertext_sum [rm0, rm1] 1 ⟨1, 2⟩ keys0.ek).1) ∧
    lkW.keys_linear.y = lkW.keys_linear.x_i * ext0.generator :=
  collect_keys_linear_dk ext0 self0 [rm0, rm1] keys0 [jm2] 1 2 lkW 1 rfl rfl

/-- Join-message batches agreeing on `party_index`, `ek` and
`dlog_statement` yield the same index checks and the same merged-map
entry lists. -/
theorem join_maps_eq (js js' : List JoinMessage)
    (h : List.Forall₂ (fun a b => a.party_index = b.party_index ∧
      a.ek = b.ek ∧ a.dlog_statement = b.dlog_statement) js js') :
    js.map (fun jm => (jm.party_index.getD 0, jm.ek)) =
      js'.map (fun jm => (jm.party_index.getD 0, jm.ek)) ∧
    js.map (fun jm => (jm.party_index.getD 0, jm.dlog_statement)) =
      js'.map (fun jm => (jm.party_index.getD 0, jm.dlog_statement)) ∧
    checkIndices js = checkIndices js' := by
  induction h with
  | nil => exact ⟨rfl, rfl, rfl⟩
  | cons hab htl ih =>
    obtain ⟨hpi, hek, hdl⟩ := hab
    obtain ⟨ih1, ih2, ih3⟩ := ih
    refine ⟨?_, ?_, ?_⟩
    · simp [List.map_cons, hpi, hek, ih1]
    · simp [List.map_cons, hpi, hdl, ih2]
    · simp only [checkIndices, JoinMessage.get_party_index, hpi, ih3]

/-- C9: `collect` never inspects the `dk_correctness_proof`,
`composite_dlog_proof_base_h1` or `composite_dlog_proof_base_h2` fields:
two runs whose own message and join messages agree on every other field
(`ek`, `party_index`, `dlog_statement`) produce identical results. -/
theorem collect_ignores_proof_fields (ext : Externals)
    (rms : List RefreshMessage) (pk : Keys) (t n : ℕ)
    (self self' : JoinMessage)
    (hpi : self.party_index = self'.party_index)
    (hek : self.ek = self'.ek)
    (hdl : self.dlog_statement = self'.dlog_statement)
    (js js' : List JoinMessage)
    (hjs : List.Forall₂ (fun a b => a.party_index = b.party_index ∧
      a.ek = b.ek ∧ a.dlog_statement = b.dlog_statement) js js') :
    JoinMessage.collect ext self rms pk js t n =
      JoinMessage.collect ext self' rms pk js' t n := by
  obtain ⟨hm1, hm2, hci⟩ := join_maps_eq js js' hjs
  have hgpi : self.get_party_index = self'.get_party_index := by
    unfold JoinMessage.get_party_index
    rw [hpi]
  have hcs : ∀ pi, collectSuccess ext self rms pk js t n pi =
      collectSuccess ext self' rms pk js' t n pi := by
    intro pi
    unfold collectSuccess availableParties availableH1H2
    rw [hm1, hm2, hdl]
  unfold JoinMessage.collect
  rw [hgpi, hci]
  cases ext.validate_collect rms t n with
  | error e => rfl
  | ok u =>
    cases self'.get_party_index with
    | error e => rfl
    | ok pi =>
      cases checkIndices js' with
      | error e => rfl
      | ok u' =>
        dsimp only
        rw [hcs pi]

/-- Witness for C9: `jm2` and `jm2'` differ exactly in the three proof
fields, and both collects agree. -/
theorem collect_ignores_proof_fields_witness :
    JoinMessage.collect ext0 self0 [rm0, rm1] keys0 [jm2] 1 2 =
      JoinMessage.collect ext0 self0 [rm0, rm1] keys0 [jm2'] 1 2 :=
  collect_ignores_proof_fields ext0 [rm0, rm1] keys0 1 2 self0 self0
    rfl rfl rfl [jm2] [jm2']
    (List.Forall₂.cons ⟨rfl, rfl, rfl⟩ List.Forall₂.nil)

/-- Looking up the key bound by the last join message carrying it:
entries after it bind other keys, so its pair survives the merge. -/
theorem hmCollect_merged_join {α : Type} (A : List (ℕ × α)) (s : ℕ × α)
    (js₁ js₂ : List JoinMessage) (jm : JoinMessage) (p : ℕ)
    (fj : JoinMessage → α)
    (hjm : jm.party_index = some p)
    (hsome : ∀ jm' ∈ js₂, (jm'.party_index).isSome)
    (htail : ∀ jm' ∈ js₂, jm'.party_index ≠ some p) :
    hmCollect (A ++ [s] ++ (js₁ ++ jm :: js₂).map
        (fun j => (j.party_index.getD 0, fj j))) p = some (fj jm) := by
  rw [List.map_append, List.map_cons, hjm, ← List.append_assoc]
  have : (some p).getD 0 = p := rfl
  rw [this]
  apply hmCollect_last
  intro q hq
  obtain ⟨jm', hmem, rfl⟩ := List.mem_map.mp hq
  obtain ⟨x, hx⟩ := Option.isSome_iff_exists.mp (hsome jm' hmem)
  rw [hx]
  intro hxp
  apply htail jm' hmem
  rw [hx]
  simpa using hxp

/-- A join-message batch binding no entry for `q` contributes nothing
at `q`. -/
theorem hmCollect_join_none {α : Type} (js : List JoinMessage) (q : ℕ)
    (fj : JoinMessage → α)
    (hsome : ∀ jm' ∈ js, (jm'.party_index).isSome)
    (hnoj : ∀ jm' ∈ js, jm'.party_index ≠ some q) :
    hmCollect (js.map (fun j => (j.party_index.getD 0, fj j))) q = none := by
  apply hmCollect_none
  intro pair hmem
  obtain ⟨jm', hm, rfl⟩ := List.mem_map.mp hmem
  obtain ⟨x, hx⟩ := Option.isSome_iff_exists.mp (hsome jm' hm)
  rw [hx]
  intro hxq
  apply hnoj jm' hm
  rw [hx]
  simpa using hxq

/-- Looking up the key bound by the last refresh message carrying it. -/
theorem hmCollect_refresh_last {α : Type}
    (rms₁ rms₂ : List RefreshMessage) (rm : RefreshMessage) (q : ℕ)
    (fr : RefreshMessage → α)
    (hq : rm.party_index = q)
    (htail : ∀ rm' ∈ rms₂, rm'.party_index ≠ q) :
    hmCollect ((rms₁ ++ rm :: rms₂).map
        (fun m => (m.party_index, fr m))) q = some (fr rm) := by
  rw [List.map_append, List.map_cons, hq]
  apply hmCollect_last
  intro pair hmem
  obtain ⟨rm', hm, rfl⟩ := List.mem_map.mp hmem
  exact htail rm' hm

/-- C10: duplicated party indices across refresh messages, the caller,
and join messages never make `collect` fail; in the merged maps the
last-inserted entry wins, so for a shared index the relevant join
message's entry overrides the caller's own entry, which overrides any
refresh message's entry, and `paillier_key_vec` / `h1_h2_n_tilde_vec`
hold the surviving entry. -/
theorem collect_duplicate_index_last_wins (ext : Externals)
    (self : JoinMessage) (rms : List RefreshMessage) (pk : Keys)
    (js₁ js₂ : List JoinMessage) (jm : JoinMessage) (t n pi p : ℕ)
    (hv : ext.validate_collect rms t n = Except.ok ())
    (hself : self.party_index = some pi)
    (hjs : checkIndices (js₁ ++ jm :: js₂) = Except.ok ())
    (hpk : rms.any (fun rm =>
      rm.public_key != (rms.getD 0 rmDefault).public_key) = false)
    (hjm : jm.party_index = some p)
    (htail : ∀ jm' ∈ js₂, jm'.party_index ≠ some p)
    (hp1 : 1 ≤ p) (hpn : p ≤ n) :
    ∃ lk, JoinMessage.collect ext self rms pk (js₁ ++ jm :: js₂) t n =
        Except.ok lk ∧
      lk.paillier_key_vec.getD (p - 1) ⟨0, 0⟩ = jm.ek ∧
      lk.h1_h2_n_tilde_vec.getD (p - 1) ⟨0, 0, 0⟩ = jm.dlog_statement ∧
      (∀ q, 1 ≤ q → q ≤ n → q = pi →
        (∀ jm' ∈ js₁ ++ jm :: js₂, jm'.party_index ≠ some q) →
        lk.paillier_key_vec.getD (q - 1) ⟨0, 0⟩ = pk.ek ∧
        lk.h1_h2_n_tilde_vec.getD (q - 1) ⟨0, 0, 0⟩ = self.dlog_statement) ∧
      (∀ q rms₁ rms₂ rm, 1 ≤ q → q ≤ n →
        (∀ jm' ∈ js₁ ++ jm :: js₂, jm'.party_index ≠ some q) → q ≠ pi →
        rms = rms₁ ++ rm :: rms₂ → rm.party_index = q →
        (∀ rm' ∈ rms₂, rm'.party_index ≠ q) →
        lk.paillier_key_vec.getD (q - 1) ⟨0, 0⟩ = rm.ek ∧
        lk.h1_h2_n_tilde_vec.getD (q - 1) ⟨0, 0, 0⟩ = rm.dlog_statement) := by
  have hsomeAll : ∀ jm' ∈ js₁ ++ jm :: js₂, (jm'.party_index).isSome :=
    (checkIndices_ok_iff _).mp hjs
  have hsome₂ : ∀ jm' ∈ js₂, (jm'.party_index).isSome := fun jm' hm =>
    hsomeAll jm' (by simp [hm])
  refine ⟨collectSuccess ext self rms pk (js₁ ++ jm :: js₂) t n pi,
    collect_eq_ok ext self rms pk _ t n pi hv hself hjs hpk,
    ?_, ?_, ?_, ?_⟩
  · simp only [collectSuccess]
    rw [getD_range'_map _ n p _ hp1 hpn]
    unfold availableParties
    rw [hmCollect_merged_join _ _ js₁ js₂ jm p _ hjm hsome₂ htail]
  · simp only [collectSuccess]
    rw [getD_range'_map _ n p _ hp1 hpn]
    unfold availableH1H2
    rw [hmCollect_merged_join _ _ js₁ js₂ jm p _ hjm hsome₂ htail]
  · intro q hq1 hqn hqpi hnoj
    subst hqpi
    constructor
    · simp only [collectSuccess]
      rw [getD_range'_map _ n q _ hq1 hqn]
      unfold availableParties
      rw [hmCollect_append, hmCollect_join_none _ q _ hsomeAll hnoj]
      rw [hmCollect_last _ ([] : List (ℕ × EncryptionKey)) q pk.ek (by simp)]
    · simp only [collectSuccess]
      rw [getD_range'_map _ n q _ hq1 hqn]
      unfold availableH1H2
      rw [hmCollect_append, hmCollect_join_none _ q _ hsomeAll hnoj]
      rw [hmCollect_last _ ([] : List (ℕ × DLogStatement)) q
        self.dlog_statement (by simp)]
  · intro q rms₁ rms₂ rm hq1 hqn hnoj hqpi hrms hrmq hrmtail
    subst hrms
    have hsingle : ∀ x ∈ [(pi, pk.ek)], Prod.fst x ≠ q := by
      intro x hx
      rw [List.mem_singleton] at hx
      subst hx
      intro hq
      exact hqpi hq.symm
    have hsingle' : ∀ x ∈ [(pi, self.dlog_statement)], Prod.fst x ≠ q := by
      intro x hx
      rw [List.mem_singleton] at hx
      subst hx
      intro hq
      exact hqpi hq.symm
    constructor
    · simp only [collectSuccess]
      rw [getD_range'_map _ n q _ hq1 hqn]
      unfold availableParties
      rw [hmCollect_append, hmCollect_join_none _ q _ hsomeAll hnoj]
      rw [hmCollect_append, hmCollect_none _ q hsingle]
      rw [hmCollect_refresh_last rms₁ rms₂ rm q _ hrmq hrmtail]
    · simp only [collectSuccess]
      rw [getD_range'_map _ n q _ hq1 hqn]
      unfold availableH1H2
      rw [hmCollect_append, hmCollect_join_none _ q _ hsomeAll hnoj]
      rw [hmCollect_append, hmCollect_none _ q hsingle']
      rw [hmCollect_refresh_last rms₁ rms₂ rm q _ hrmq hrmtail]

/-- Witness for C10: join message `jm2` (index `2`) collides with
refresh message `rm0` (index `2`); the collect succeeds and position
`2` holds `jm2`'s entries. -/
theorem collect_duplicate_index_last_wins_witness :
    ∃ lk, JoinMessage.collect ext0 self0 [rm0, rm1] keys0
        ([] ++ jm2 :: []) 1 2 = Except.ok lk ∧
      lk.paillier_key_vec.getD (2 - 1) ⟨0, 0⟩ = jm2.ek ∧
      lk.h1_h2_n_tilde_vec.getD (2 - 1) ⟨0, 0, 0⟩ = jm2.dlog_statement ∧
      (∀ q, 1 ≤ q → q ≤ 2 → q = 1 →
        (∀ jm' ∈ [] ++ jm2 :: [], jm'.party_index ≠ some q) →
        lk.paillier_key_vec.getD (q - 1) ⟨0, 0⟩ = keys0.ek ∧
        lk.h1_h2_n_tilde_vec.getD (q - 1) ⟨0, 0, 0⟩ = self0.dlog_statement) ∧
      (∀ q rms₁ rms₂ rm, 1 ≤ q → q ≤ 2 →
        (∀ jm' ∈ [] ++ jm2 :: [], jm'.party_index ≠ some q) → q ≠ 1 →
        [rm0, rm1] = rms₁ ++ rm :: rms₂ → rm.party_index = q →
        (∀ rm' ∈ rms₂, rm'.party_index ≠ q) →
        lk.paillier_key_vec.getD (q - 1) ⟨0, 0⟩ = rm.ek ∧
        lk.h1_h2_n_tilde_vec.getD (q - 1) ⟨0, 0, 0⟩ = rm.dlog_statement) :=
  collect_duplicate_index_last_wins ext0 self0 [rm0, rm1] keys0 [] [] jm2
    1 2 1 2 rfl rfl rfl (by decide) rfl (by simp) (by decide) (by decide)

end FsDkr
